import Mathlib

/-!
Verification of the encoding and ciphertext-algebra layer of pyconcrete.
Rust f64 values are modelled as rationals, usize as Nat, the fixed-width
Torus domain (u64) as Nat reduced modulo 2 ^ 64, and fallible operations
as Except values.  Operations whose bodies live in the wrapped concrete
backend rather than in this repository are modelled from the spec and
carry a doc comment saying so.
-/

/-- Error kinds raised by the wrapped backend (CryptoAPIError in Rust). -/
inductive CryptoAPIError where
  | DimensionError
  | DeltaError
  | PaddingError
  | NotEnoughPaddingError
  | IndexError
  | MessageOutsideIntervalError
  | InvalidEncoderError
deriving Repr, DecidableEq

/-- Python-level error produced by the translate_error macro in lib.rs:
every backend error becomes a PyValueError whose message is the display
string of the backend error, so the kind is preserved. -/
inductive PyErr where
  | valueError (kind : CryptoAPIError)
deriving Repr, DecidableEq

/-- Embedding of the translate_error macro of lib.rs: Ok passes through,
Err e becomes PyValueError with the message of e. -/
def translate_error {α : Type} : Except CryptoAPIError α → Except PyErr α
  | .ok v => .ok v
  | .error e => .error (.valueError e)

/-- Decidable equality for Except, used to evaluate closed statements. -/
instance {ε α : Type} [DecidableEq ε] [DecidableEq α] : DecidableEq (Except ε α) :=
  fun a b =>
    match a, b with
    | .ok x, .ok y =>
        if h : x = y then isTrue (by rw [h])
        else isFalse (by intro hc; cases hc; exact h rfl)
    | .ok _, .error _ => isFalse (fun hc => Except.noConfusion hc)
    | .error _, .ok _ => isFalse (fun hc => Except.noConfusion hc)
    | .error x, .error y =>
        if h : x = y then isTrue (by rw [h])
        else isFalse (by intro hc; cases hc; exact h rfl)

/-- Rounding to the nearest integer on rationals, named so that it stays
visible inside namespaces that carry a round field. -/
def qround (x : ℚ) : ℤ := round x

/-- Width in bits of the Torus type (u64 in the Rust code). -/
def torusBits : ℕ := 64

/-- Embedding of the Encoder struct of src/encoder.rs: offset o, width
delta, number of precision bits, number of padding bits, rounding flag. -/
structure Encoder where
  o : ℚ
  delta : ℚ
  nb_bit_precision : ℕ
  nb_bit_padding : ℕ
  round : Bool
deriving Repr, DecidableEq

/-- Embedding of Encoder::zero of src/encoder.rs: all fields zero. -/
def Encoder.zero : Encoder := ⟨0, 0, 0, 0, false⟩

/-- Embedding of Encoder::is_valid of src/encoder.rs. -/
def Encoder.is_valid (e : Encoder) : Bool :=
  !(e.nb_bit_precision == 0 || decide (e.delta ≤ 0))

/-- Embedding of Encoder::get_granularity of src/encoder.rs:
delta divided by 2 to the number of precision bits. -/
def Encoder.get_granularity (e : Encoder) : ℚ :=
  e.delta / 2 ^ e.nb_bit_precision

/-- Embedding of Encoder::get_min of src/encoder.rs. -/
def Encoder.get_min (e : Encoder) : ℚ := e.o

/-- Embedding of Encoder::get_max of src/encoder.rs. -/
def Encoder.get_max (e : Encoder) : ℚ :=
  e.o + e.delta - e.get_granularity

/-- Embedding of Encoder::get_size of src/encoder.rs. -/
def Encoder.get_size (e : Encoder) : ℚ :=
  e.delta - e.get_granularity

/-- Embedding of Encoder::copy of src/encoder.rs: assigns o, delta,
nb_bit_precision and nb_bit_padding from the source encoder; the round
field is not assigned there. -/
def Encoder.copy (dst src : Encoder) : Encoder :=
  { dst with
      o := src.o
      delta := src.delta
      nb_bit_precision := src.nb_bit_precision
      nb_bit_padding := src.nb_bit_padding }

/-- Embedding of Encoder::opposite_inplace of src/encoder.rs: the offset
becomes the negation of the old maximum, nothing else changes. -/
def Encoder.opposite_inplace (e : Encoder) : Encoder :=
  { e with o := -(e.o + e.delta - e.get_granularity) }

/-- Shift applied to an encoded index so that the padding and precision
bits sit at the top of the torus word. -/
def Encoder.torusShift (e : Encoder) : ℕ :=
  torusBits - e.nb_bit_precision - e.nb_bit_padding

/-- Interval membership test used by the strict encode path. -/
def Encoder.in_interval (e : Encoder) (m : ℚ) : Bool :=
  decide (e.o ≤ m) && decide (m < e.o + e.delta)

/-- Modelled from the spec: Encoder::encode_core lives in the concrete
backend, this repository only delegates to it.  Per the spec it computes
round_or_floor of (message - o) / granularity and shifts it left by
bitwidth - nb_bit_precision - nb_bit_padding, in fixed-width arithmetic. -/
def Encoder.encode_core (e : Encoder) (m : ℚ) : ℕ :=
  ((if e.round then qround ((m - e.o) / e.get_granularity)
    else ⌊(m - e.o) / e.get_granularity⌋).toNat
    * 2 ^ e.torusShift) % 2 ^ torusBits

/-- Modelled from the spec: Encoder::decode_single lives in the concrete
backend.  Per the spec it is the inverse mapping, always succeeds, and a
noisy torus value decodes to the nearest grid point: the torus word is
rounded to the nearest multiple of the grid step and mapped back. -/
def Encoder.decode_single (e : Encoder) (t : ℕ) : Except CryptoAPIError ℚ :=
  .ok (e.o + (qround ((t : ℚ) / 2 ^ e.torusShift) : ℚ) * e.get_granularity)

/-- Embedding of the Plaintext struct of src/plaintext.rs. -/
structure Plaintext where
  encoders : List Encoder
  plaintexts : List ℕ
  nb_plaintexts : ℕ
deriving Repr, DecidableEq

/-- Modelled from the spec: Encoder::encode_single lives in the concrete
backend.  It fails with MessageOutsideIntervalError when the message is
outside the interval and otherwise returns a one-slot Plaintext holding
the encoded torus value. -/
def Encoder.encode_single (e : Encoder) (m : ℚ) : Except CryptoAPIError Plaintext :=
  if e.in_interval m then .ok ⟨[e], [e.encode_core m], 1⟩
  else .error .MessageOutsideIntervalError

/-- Composition decode_single after encode_single on the first slot, the
shape of the round-trip property of the spec. -/
def Encoder.round_trip (e : Encoder) (m : ℚ) : Except CryptoAPIError ℚ :=
  match e.encode_single m with
  | .ok pt => e.decode_single (pt.plaintexts.getD 0 0)
  | .error err => .error err

/-- Modelled from the spec: the noise-bit count returned by
Encoder::update_precision_from_variance, roughly the number of low bits
whose step is below the noise deviation; the confidence factor is fixed
at three and the comparison is squared to stay in rational arithmetic. -/
def Encoder.nb_noise_bits (e : Encoder) (variance : ℚ) : ℕ :=
  ((List.range torusBits).filter
    (fun n => decide ((e.get_granularity * 2 ^ n) ^ 2 < 9 * variance))).length

/-- Modelled from the spec: Encoder::update_precision_from_variance lives
in the concrete backend; per the spec it returns the count of
noise-dominated precision bits and does not mutate the encoder, so it is
embedded as a pair of the count and the resulting encoder state. -/
def Encoder.update_precision_from_variance (e : Encoder) (variance : ℚ) :
    ℕ × Encoder :=
  (e.nb_noise_bits variance, e)

/-- Embedding of Plaintext::zero of src/plaintext.rs. -/
def Plaintext.zero (nb_plaintexts : ℕ) : Plaintext :=
  ⟨List.replicate nb_plaintexts Encoder.zero,
   List.replicate nb_plaintexts 0,
   nb_plaintexts⟩

/-- Embedding of the plaintexts setter of src/plaintext.rs: replaces the
raw list without touching the other fields. -/
def Plaintext.set_plaintexts (p : Plaintext) (v : List ℕ) : Plaintext :=
  { p with plaintexts := v }

/-- Embedding of the nb_plaintexts setter of src/plaintext.rs: replaces
the count without touching the lists. -/
def Plaintext.set_nb_plaintexts (p : Plaintext) (v : ℕ) : Plaintext :=
  { p with nb_plaintexts := v }

/-- Modelled from the spec: Plaintext::encode lives in the concrete
backend.  It applies one shared encoder to every message, failing per the
encode_single contract when some message is outside the interval. -/
def Plaintext.encode (messages : List ℚ) (e : Encoder) :
    Except CryptoAPIError Plaintext :=
  if messages.all (fun m => e.in_interval m) then
    .ok ⟨List.replicate messages.length e,
         messages.map (fun m => e.encode_core m),
         messages.length⟩
  else .error .MessageOutsideIntervalError

/-- Invariant of the Plaintext struct stated in the spec: both lists have
length nb_plaintexts. -/
def Plaintext.inv (p : Plaintext) : Prop :=
  p.encoders.length = p.plaintexts.length ∧
  p.plaintexts.length = p.nb_plaintexts

instance (p : Plaintext) : Decidable p.inv := by
  unfold Plaintext.inv; infer_instance

/-- Outcome of a call that may return a value, return a typed error, or
abort the process; abort models a Rust panic. -/
inductive POutcome (α : Type) where
  | ok (a : α)
  | err (e : CryptoAPIError)
  | abort
deriving Repr, DecidableEq

/-- Embedding of Plaintext::set_nth_encoder of src/plaintext.rs: the body
indexes encoders with nth unchecked, so an out-of-range index is a panic;
in range it copies the given encoder into the slot via Encoder::copy. -/
def Plaintext.set_nth_encoder (p : Plaintext) (nth : ℕ) (encoder : Encoder) :
    POutcome Plaintext :=
  if nth < p.encoders.length then
    .ok { p with
            encoders := p.encoders.set nth
              ((p.encoders.getD nth Encoder.zero).copy encoder) }
  else .abort

/-- Embedding of the LWE struct of src/lwe.rs: mask-and-body word list,
noise variance, mask dimension, and one encoder. -/
structure LWE where
  ciphertext : List ℕ
  variance : ℚ
  dimension : ℕ
  encoder : Encoder
deriving Repr, DecidableEq

/-- Modelled from the spec: LWE::add_with_padding lives in the concrete
backend, the wrapper in src/lwe.rs only delegates.  Per the spec it
requires matching dimension, matching delta, matching padding and at
least one bit of padding, in that order, then adds bodies word-wise,
keeps precision at the minimum of the two operands and consumes one bit
of padding; the resulting offset is the sum of the two offsets. -/
def LWE.add_with_padding (a b : LWE) : Except CryptoAPIError LWE :=
  if a.dimension ≠ b.dimension then .error .DimensionError
  else if a.encoder.delta ≠ b.encoder.delta then .error .DeltaError
  else if a.encoder.nb_bit_padding ≠ b.encoder.nb_bit_padding then
    .error .PaddingError
  else if a.encoder.nb_bit_padding = 0 then .error .NotEnoughPaddingError
  else
    .ok { ciphertext :=
            List.zipWith (fun x y => (x + y) % 2 ^ torusBits)
              a.ciphertext b.ciphertext
          variance := a.variance + b.variance
          dimension := a.dimension
          encoder :=
            { o := a.encoder.o + b.encoder.o
              delta := a.encoder.delta
              nb_bit_precision :=
                min a.encoder.nb_bit_precision b.encoder.nb_bit_precision
              nb_bit_padding := a.encoder.nb_bit_padding - 1
              round := a.encoder.round } }

/-- Embedding of LWE::get_ciphertext_size of src/lwe.rs; the method takes
self by shared reference, so it is embedded as returning the size paired
with the unchanged ciphertext state. -/
def LWE.get_ciphertext_size (ct : LWE) : ℕ × LWE :=
  (ct.dimension + 1, ct)

/-- Embedding of the LWEBSK struct of src/lwe_bsk.rs, reduced to the
scalar fields the algebra reads. -/
structure LWEBSK where
  dimension : ℕ
  polynomial_size : ℕ
  base_log : ℕ
  level : ℕ
deriving Repr, DecidableEq

/-- Modelled from the spec: the programmable bootstrap itself is a
Lattice Backend primitive outside this repository, so it is embedded as
an abstract function from ciphertext, bootstrap key, lookup-table
function and output encoder to a backend result. -/
def BootstrapBackend : Type :=
  LWE → LWEBSK → (ℚ → ℚ) → Encoder → Except CryptoAPIError LWE

/-- Embedding of LWE::bootstrap_with_function of src/lwe.rs: delegates to
the backend bootstrap and translates the error. -/
def LWE.bootstrap_with_function (backend : BootstrapBackend) (ct : LWE)
    (bsk : LWEBSK) (f : ℚ → ℚ) (encoder_output : Encoder) :
    Except PyErr LWE :=
  translate_error (backend ct bsk f encoder_output)

/-- Embedding of LWE::bootstrap of src/lwe.rs: delegates to the backend
bootstrap of the identity function with the own encoder as output
encoder.  The source line omits the error-translation macro, which does
not typecheck as written; the delegation target is identical, so the
translation is applied uniformly here. -/
def LWE.bootstrap (backend : BootstrapBackend) (ct : LWE) (bsk : LWEBSK) :
    Except PyErr LWE :=
  translate_error (backend ct bsk (fun x => x) ct.encoder)

/-- Embedding of the VectorLWE struct of src/vector_lwe.rs. -/
structure VectorLWE where
  ciphertexts : List ℕ
  variances : List ℚ
  dimension : ℕ
  nb_ciphertexts : ℕ
  encoders : List Encoder
deriving Repr, DecidableEq

/-- Modelled from the spec: VectorLWE::extract_nth lives in the concrete
backend.  Per the spec it bound-checks the index against the number of
ciphertexts, failing with IndexError, and otherwise isolates the selected
mask-and-body block, variance and encoder into a fresh one-element
vector. -/
def VectorLWE.extract_nth (v : VectorLWE) (n : ℕ) : POutcome VectorLWE :=
  if n < v.nb_ciphertexts then
    .ok { ciphertexts :=
            (v.ciphertexts.drop (n * (v.dimension + 1))).take (v.dimension + 1)
          variances := (v.variances.drop n).take 1
          dimension := v.dimension
          nb_ciphertexts := 1
          encoders := (v.encoders.drop n).take 1 }
  else .err .IndexError

/-- Embedding of the VectorRLWE struct of src/vector_rlwe.rs. -/
structure VectorRLWE where
  ciphertexts : List ℕ
  variances : List ℚ
  dimension : ℕ
  polynomial_size : ℕ
  nb_ciphertexts : ℕ
  encoders : List Encoder
deriving Repr, DecidableEq

/-- Embedding of VectorRLWE::get_ciphertext_size of src/vector_rlwe.rs;
as for LWE the method reads self only, so it returns the size paired with
the unchanged state. -/
def VectorRLWE.get_ciphertext_size (ct : VectorRLWE) : ℕ × VectorRLWE :=
  (ct.polynomial_size * (ct.dimension + 1), ct)

/-- Validity of an encoder unfolds to nonzero precision and positive
delta. -/
lemma Encoder.valid_iff (e : Encoder) :
    e.is_valid = true ↔ e.nb_bit_precision ≠ 0 ∧ 0 < e.delta := by
  simp [Encoder.is_valid, not_le]

/-- A valid encoder has a positive granularity. -/
lemma Encoder.get_granularity_pos (e : Encoder) (h : e.is_valid = true) :
    0 < e.get_granularity := by
  obtain ⟨h1, h2⟩ := e.valid_iff.mp h
  exact div_pos h2 (by positivity)

/-- Delta is the granularity times the number of grid steps. -/
lemma Encoder.delta_eq_gran (e : Encoder) :
    e.delta = e.get_granularity * 2 ^ e.nb_bit_precision := by
  unfold Encoder.get_granularity
  field_simp

/-- Evaluation of the round trip when the encoded index does not
overflow the torus word: the decoded value is the grid point of the
rounded index. -/
lemma Encoder.round_trip_eval (e : Encoder) (m : ℚ) (q : ℤ)
    (hin : e.in_interval m = true)
    (hq : (if e.round then qround ((m - e.o) / e.get_granularity)
           else ⌊(m - e.o) / e.get_granularity⌋) = q)
    (h0 : 0 ≤ q)
    (hlt : q.toNat * 2 ^ e.torusShift < 2 ^ torusBits) :
    e.round_trip m = .ok (e.o + (q : ℚ) * e.get_granularity) := by
  unfold Encoder.round_trip
  simp only [Encoder.encode_single, hin, if_true, Encoder.encode_core, hq]
  simp only [List.getD_cons_zero, Nat.mod_eq_of_lt hlt, Encoder.decode_single]
  have hcast : ((q.toNat * 2 ^ e.torusShift : ℕ) : ℚ) / 2 ^ e.torusShift
      = (q.toNat : ℚ) := by
    push_cast
    field_simp
  rw [hcast]
  have hq2 : qround ((q.toNat : ℕ) : ℚ) = q := by
    unfold qround
    rw [round_natCast]
    exact_mod_cast Int.toNat_of_nonneg h0
  rw [hq2]

/-- Worked example encoder of the spec scenario, interval two tenths to
eight tenths with eight bits of precision and four bits of padding. -/
def encEx : Encoder := ⟨1/5, 3/5, 8, 4, false⟩

/-- Rounding-context encoder with one bit of precision and no padding,
used to exhibit the torus wrap-around of the rounding encode path. -/
def encCE : Encoder := ⟨0, 1, 1, 0, true⟩

/-- C1 counterexample.  The claim quantifies over every valid encoder and
message, covering the rounding context with zero padding.  For the
encoder over the unit interval with one precision bit, no padding and
round set, the message four fifths rounds up to the grid index two,
whose shifted torus word wraps to zero, so it decodes back to zero,
which is farther from the message than one granularity (one half). -/
theorem C1_round_trip_counterexample :
    encCE.round = true ∧
    encCE.is_valid = true ∧
    encCE.o ≤ 4/5 ∧ (4/5 : ℚ) < encCE.o + encCE.delta ∧
    encCE.round_trip (4/5) = .ok 0 ∧
    ¬ (|(0 : ℚ) - 4/5| ≤ encCE.get_granularity) := by
  refine ⟨rfl, ?_, by norm_num [encCE], by norm_num [encCE], ?_, ?_⟩
  · exact (Encoder.valid_iff encCE).mpr ⟨by norm_num [encCE], by norm_num [encCE]⟩
  · have h2 : encCE.in_interval (4/5) = true := by
      simp only [Encoder.in_interval, encCE, Bool.and_eq_true, decide_eq_true_eq]
      norm_num
    have h1 : encCE.encode_core (4/5) = 0 := by
      norm_num [Encoder.encode_core, Encoder.get_granularity, Encoder.torusShift,
        torusBits, qround, round_eq, encCE]
      decide
    simp only [Encoder.round_trip, Encoder.encode_single, h2, if_true, h1, List.getD]
    norm_num [Encoder.decode_single, Encoder.get_granularity, Encoder.torusShift,
      torusBits, qround, round_eq, encCE]
  · rw [show (0:ℚ) - 4/5 = -(4/5) by norm_num, abs_neg,
      abs_of_nonneg (by norm_num : (0:ℚ) ≤ 4/5)]
    norm_num [Encoder.get_granularity, encCE]

/-- C1 (amended): for every valid encoder whose precision and padding
bits fit in the torus word and every message inside the interval, the
round trip through encode_single and decode_single returns, in the
truncating context, exactly the floor grid point, which lies within one
granularity of the message, and, in the rounding context with at least
one bit of padding, exactly the nearest grid point, within half a
granularity; with round set and zero padding the top half-step of the
interval wraps around the torus, as the counterexample shows. -/
theorem C1_round_trip (e : Encoder) (m : ℚ)
    (hval : e.is_valid = true)
    (hw : e.nb_bit_precision + e.nb_bit_padding ≤ torusBits)
    (hlo : e.o ≤ m) (hhi : m < e.o + e.delta) :
    (e.round = false →
      e.round_trip m =
        .ok (e.o + (⌊(m - e.o) / e.get_granularity⌋ : ℚ) * e.get_granularity) ∧
      |e.o + (⌊(m - e.o) / e.get_granularity⌋ : ℚ) * e.get_granularity - m|
        < e.get_granularity) ∧
    (e.round = true → 1 ≤ e.nb_bit_padding →
      e.round_trip m =
        .ok (e.o + (qround ((m - e.o) / e.get_granularity) : ℚ) * e.get_granularity) ∧
      |e.o + (qround ((m - e.o) / e.get_granularity) : ℚ) * e.get_granularity - m|
        ≤ e.get_granularity / 2) := by
  obtain ⟨hprec, hdelta⟩ := e.valid_iff.mp hval
  have gpos := e.get_granularity_pos hval
  have hin : e.in_interval m = true := by
    simp only [Encoder.in_interval, Bool.and_eq_true, decide_eq_true_eq]
    exact ⟨hlo, hhi⟩
  have hxg : (m - e.o) / e.get_granularity * e.get_granularity = m - e.o :=
    div_mul_cancel₀ _ gpos.ne'
  have hx0 : 0 ≤ (m - e.o) / e.get_granularity :=
    div_nonneg (by linarith) gpos.le
  have hxlt : (m - e.o) / e.get_granularity < 2 ^ e.nb_bit_precision := by
    rw [div_lt_iff₀ gpos]
    have hd := e.delta_eq_gran
    calc m - e.o < e.delta := by linarith
    _ = e.get_granularity * 2 ^ e.nb_bit_precision := hd
    _ = 2 ^ e.nb_bit_precision * e.get_granularity := mul_comm _ _
  have hps : 2 ^ e.nb_bit_precision * 2 ^ e.torusShift
      = 2 ^ (torusBits - e.nb_bit_padding) := by
    rw [← pow_add]
    congr 1
    unfold Encoder.torusShift torusBits
    unfold torusBits at hw
    omega
  constructor
  · intro hrf
    have hq0 : 0 ≤ ⌊(m - e.o) / e.get_granularity⌋ := Int.floor_nonneg.mpr hx0
    have hqlt : ⌊(m - e.o) / e.get_granularity⌋ < 2 ^ e.nb_bit_precision := by
      rw [Int.floor_lt]
      push_cast
      exact hxlt
    have hltn : (⌊(m - e.o) / e.get_granularity⌋).toNat < 2 ^ e.nb_bit_precision := by
      have h2 : ((⌊(m - e.o) / e.get_granularity⌋).toNat : ℤ) < 2 ^ e.nb_bit_precision := by
        rw [Int.toNat_of_nonneg hq0]
        exact hqlt
      exact_mod_cast h2
    have hlt : (⌊(m - e.o) / e.get_granularity⌋).toNat * 2 ^ e.torusShift
        < 2 ^ torusBits := by
      have h1 : (⌊(m - e.o) / e.get_granularity⌋).toNat * 2 ^ e.torusShift
          < 2 ^ e.nb_bit_precision * 2 ^ e.torusShift :=
        Nat.mul_lt_mul_of_lt_of_le hltn (le_refl _) (by positivity)
      have h2 : 2 ^ (torusBits - e.nb_bit_padding) ≤ 2 ^ torusBits :=
        Nat.pow_le_pow_right (by norm_num) (Nat.sub_le _ _)
      calc (⌊(m - e.o) / e.get_granularity⌋).toNat * 2 ^ e.torusShift
          < 2 ^ e.nb_bit_precision * 2 ^ e.torusShift := h1
      _ = 2 ^ (torusBits - e.nb_bit_padding) := hps
      _ ≤ 2 ^ torusBits := h2
    have heval := e.round_trip_eval m _ hin (by rw [hrf]; simp) hq0 hlt
    refine ⟨heval, ?_⟩
    have hfr : e.o + (⌊(m - e.o) / e.get_granularity⌋ : ℚ) * e.get_granularity - m
        = -(Int.fract ((m - e.o) / e.get_granularity) * e.get_granularity) := by
      rw [Int.fract]
      calc e.o + (⌊(m - e.o) / e.get_granularity⌋ : ℚ) * e.get_granularity - m
          = (⌊(m - e.o) / e.get_granularity⌋ : ℚ) * e.get_granularity - (m - e.o) := by
            ring
      _ = (⌊(m - e.o) / e.get_granularity⌋ : ℚ) * e.get_granularity
            - (m - e.o) / e.get_granularity * e.get_granularity := by rw [hxg]
      _ = -(((m - e.o) / e.get_granularity - (⌊(m - e.o) / e.get_granularity⌋ : ℚ))
            * e.get_granularity) := by ring
    rw [hfr, abs_neg,
      abs_of_nonneg (mul_nonneg (Int.fract_nonneg _) gpos.le)]
    have := Int.fract_lt_one ((m - e.o) / e.get_granularity)
    nlinarith [this, gpos]
  · intro hrt hpad
    have hq0 : 0 ≤ qround ((m - e.o) / e.get_granularity) := by
      unfold qround
      rw [round_eq]
      exact Int.floor_nonneg.mpr (by linarith)
    have hqle : qround ((m - e.o) / e.get_granularity) ≤ 2 ^ e.nb_bit_precision := by
      unfold qround
      rw [round_eq]
      have h1 : ⌊(m - e.o) / e.get_granularity + 1 / 2⌋ < 2 ^ e.nb_bit_precision + 1 := by
        rw [Int.floor_lt]
        push_cast
        linarith
      omega
    have hltn : (qround ((m - e.o) / e.get_granularity)).toNat
        ≤ 2 ^ e.nb_bit_precision := by
      have h2 : ((qround ((m - e.o) / e.get_granularity)).toNat : ℤ)
          ≤ 2 ^ e.nb_bit_precision := by
        rw [Int.toNat_of_nonneg hq0]
        exact hqle
      exact_mod_cast h2
    have hlt : (qround ((m - e.o) / e.get_granularity)).toNat * 2 ^ e.torusShift
        < 2 ^ torusBits := by
      have h1 : (qround ((m - e.o) / e.get_granularity)).toNat * 2 ^ e.torusShift
          ≤ 2 ^ e.nb_bit_precision * 2 ^ e.torusShift :=
        Nat.mul_le_mul_right _ hltn
      have h2 : 2 ^ (torusBits - e.nb_bit_padding) < 2 ^ torusBits :=
        Nat.pow_lt_pow_right (by norm_num) (by unfold torusBits; unfold torusBits at hw; omega)
      calc (qround ((m - e.o) / e.get_granularity)).toNat * 2 ^ e.torusShift
          ≤ 2 ^ (torusBits - e.nb_bit_padding) := by rw [← hps]; exact h1
      _ < 2 ^ torusBits := h2
    have heval := e.round_trip_eval m _ hin (by rw [hrt]; simp) hq0 hlt
    refine ⟨heval, ?_⟩
    have hfr : e.o + (qround ((m - e.o) / e.get_granularity) : ℚ) * e.get_granularity - m
        = ((qround ((m - e.o) / e.get_granularity) : ℚ)
            - (m - e.o) / e.get_granularity) * e.get_granularity := by
      calc e.o + (qround ((m - e.o) / e.get_granularity) : ℚ) * e.get_granularity - m
          = (qround ((m - e.o) / e.get_granularity) : ℚ) * e.get_granularity
            - (m - e.o) := by ring
      _ = (qround ((m - e.o) / e.get_granularity) : ℚ) * e.get_granularity
            - (m - e.o) / e.get_granularity * e.get_granularity := by rw [hxg]
      _ = ((qround ((m - e.o) / e.get_granularity) : ℚ)
            - (m - e.o) / e.get_granularity) * e.get_granularity := by ring
    rw [hfr, abs_mul, abs_of_pos gpos]
    have habs : |(qround ((m - e.o) / e.get_granularity) : ℚ)
        - (m - e.o) / e.get_granularity| ≤ 1 / 2 := by
      unfold qround
      rw [abs_sub_comm]
      exact abs_sub_round _
    nlinarith [habs, gpos]

/-- C1 witness: the amended round-trip theorem instantiated on the spec
scenario encoder and the message three fifths. -/
theorem C1_round_trip_witness :
    encEx.is_valid = true ∧
    encEx.nb_bit_precision + encEx.nb_bit_padding ≤ torusBits ∧
    encEx.o ≤ 3/5 ∧ (3/5 : ℚ) < encEx.o + encEx.delta ∧
    ((encEx.round = false →
      encEx.round_trip (3/5) =
        .ok (encEx.o + (⌊((3:ℚ)/5 - encEx.o) / encEx.get_granularity⌋ : ℚ)
          * encEx.get_granularity) ∧
      |encEx.o + (⌊((3:ℚ)/5 - encEx.o) / encEx.get_granularity⌋ : ℚ)
          * encEx.get_granularity - 3/5| < encEx.get_granularity) ∧
    (encEx.round = true → 1 ≤ encEx.nb_bit_padding →
      encEx.round_trip (3/5) =
        .ok (encEx.o + (qround (((3:ℚ)/5 - encEx.o) / encEx.get_granularity) : ℚ)
          * encEx.get_granularity) ∧
      |encEx.o + (qround (((3:ℚ)/5 - encEx.o) / encEx.get_granularity) : ℚ)
          * encEx.get_granularity - 3/5| ≤ encEx.get_granularity / 2)) := by
  have h1 : encEx.is_valid = true :=
    (Encoder.valid_iff encEx).mpr ⟨by norm_num [encEx], by norm_num [encEx]⟩
  have h2 : encEx.nb_bit_precision + encEx.nb_bit_padding ≤ torusBits := by decide
  have h3 : encEx.o ≤ 3/5 := by norm_num [encEx]
  have h4 : (3/5 : ℚ) < encEx.o + encEx.delta := by norm_num [encEx]
  exact ⟨h1, h2, h3, h4, C1_round_trip encEx (3/5) h1 h2 h3 h4⟩

/-- C2: add_with_padding checks dimension, delta, padding equality and
nonzero padding in that order, and on success keeps precision at the
minimum of the operands and consumes exactly one bit of padding from
the common padding budget. -/
theorem C2_add_with_padding (a b : LWE) :
    (a.dimension ≠ b.dimension →
      a.add_with_padding b = .error .DimensionError) ∧
    (a.dimension = b.dimension → a.encoder.delta ≠ b.encoder.delta →
      a.add_with_padding b = .error .DeltaError) ∧
    (a.dimension = b.dimension → a.encoder.delta = b.encoder.delta →
      a.encoder.nb_bit_padding ≠ b.encoder.nb_bit_padding →
      a.add_with_padding b = .error .PaddingError) ∧
    (a.dimension = b.dimension → a.encoder.delta = b.encoder.delta →
      a.encoder.nb_bit_padding = b.encoder.nb_bit_padding →
      a.encoder.nb_bit_padding = 0 →
      a.add_with_padding b = .error .NotEnoughPaddingError) ∧
    (a.dimension = b.dimension → a.encoder.delta = b.encoder.delta →
      a.encoder.nb_bit_padding = b.encoder.nb_bit_padding →
      1 ≤ a.encoder.nb_bit_padding →
      (a.add_with_padding b).map (fun c => c.encoder.nb_bit_precision)
        = .ok (min a.encoder.nb_bit_precision b.encoder.nb_bit_precision) ∧
      (a.add_with_padding b).map (fun c => c.encoder.nb_bit_padding)
        = .ok (a.encoder.nb_bit_padding - 1) ∧
      (a.encoder.nb_bit_padding - 1) + 1 = a.encoder.nb_bit_padding ∧
      (b.encoder.nb_bit_padding - 1) + 1 = b.encoder.nb_bit_padding) := by
  refine ⟨?_, ?_, ?_, ?_, ?_⟩
  · intro h
    simp [LWE.add_with_padding, h]
  · intro h1 h2
    simp [LWE.add_with_padding, h1, h2]
  · intro h1 h2 h3
    simp [LWE.add_with_padding, h1, h2, h3]
  · intro h1 h2 h3 h4
    simp [LWE.add_with_padding, h1, h2, h3, h4]
    omega
  · intro h1 h2 h3 h4
    have h5 : ¬ a.encoder.nb_bit_padding = 0 := by omega
    have h6 : ¬ b.encoder.nb_bit_padding = 0 := by omega
    refine ⟨?_, ?_, by omega, by omega⟩
    · simp [LWE.add_with_padding, h1, h2, h3, h5, h6, Except.map]
    · simp [LWE.add_with_padding, h1, h2, h3, h5, h6, Except.map]

/-- Example single ciphertext with one bit of padding. -/
def lweEx1 : LWE := ⟨[1, 2], 0, 1, ⟨0, 1, 4, 1, false⟩⟩

/-- Second example single ciphertext matching lweEx1 in dimension, delta
and padding but with a smaller precision. -/
def lweEx2 : LWE := ⟨[3, 4], 0, 1, ⟨0, 1, 3, 1, false⟩⟩

/-- C2 witness: the success branch of add_with_padding on two compatible
example ciphertexts with one bit of padding each. -/
theorem C2_add_with_padding_witness :
    lweEx1.dimension = lweEx2.dimension ∧
    lweEx1.encoder.delta = lweEx2.encoder.delta ∧
    lweEx1.encoder.nb_bit_padding = lweEx2.encoder.nb_bit_padding ∧
    1 ≤ lweEx1.encoder.nb_bit_padding ∧
    ((lweEx1.add_with_padding lweEx2).map (fun c => c.encoder.nb_bit_precision)
        = .ok (min lweEx1.encoder.nb_bit_precision lweEx2.encoder.nb_bit_precision) ∧
      (lweEx1.add_with_padding lweEx2).map (fun c => c.encoder.nb_bit_padding)
        = .ok (lweEx1.encoder.nb_bit_padding - 1) ∧
      (lweEx1.encoder.nb_bit_padding - 1) + 1 = lweEx1.encoder.nb_bit_padding ∧
      (lweEx2.encoder.nb_bit_padding - 1) + 1 = lweEx2.encoder.nb_bit_padding) := by
  have h1 : lweEx1.dimension = lweEx2.dimension := rfl
  have h2 : lweEx1.encoder.delta = lweEx2.encoder.delta := rfl
  have h3 : lweEx1.encoder.nb_bit_padding = lweEx2.encoder.nb_bit_padding := rfl
  have h4 : 1 ≤ lweEx1.encoder.nb_bit_padding := by norm_num [lweEx1]
  exact ⟨h1, h2, h3, h4,
    (C2_add_with_padding lweEx1 lweEx2).2.2.2.2 h1 h2 h3 h4⟩

/-- C3: opposite_inplace moves the offset to the negation of the old
maximum, so the represented interval becomes the reflected one, while
delta, precision, padding and the rounding flag are unchanged. -/
theorem C3_opposite_inplace (e : Encoder) (h : e.is_valid = true) :
    (e.opposite_inplace).o = -e.get_max ∧
    (e.opposite_inplace).o = -(e.o + e.delta - e.get_granularity) ∧
    (e.opposite_inplace).delta = e.delta ∧
    (e.opposite_inplace).nb_bit_precision = e.nb_bit_precision ∧
    (e.opposite_inplace).nb_bit_padding = e.nb_bit_padding ∧
    (e.opposite_inplace).round = e.round :=
  ⟨rfl, rfl, rfl, rfl, rfl, rfl⟩

/-- C3 witness: opposite_inplace on the spec scenario encoder. -/
theorem C3_opposite_inplace_witness :
    encEx.is_valid = true ∧
    ((encEx.opposite_inplace).o = -encEx.get_max ∧
     (encEx.opposite_inplace).o = -(encEx.o + encEx.delta - encEx.get_granularity) ∧
     (encEx.opposite_inplace).delta = encEx.delta ∧
     (encEx.opposite_inplace).nb_bit_precision = encEx.nb_bit_precision ∧
     (encEx.opposite_inplace).nb_bit_padding = encEx.nb_bit_padding ∧
     (encEx.opposite_inplace).round = encEx.round) := by
  have h1 : encEx.is_valid = true :=
    (Encoder.valid_iff encEx).mpr ⟨by norm_num [encEx], by norm_num [encEx]⟩
  exact ⟨h1, C3_opposite_inplace encEx h1⟩

/-- Encoder with only the round flag set, the destination of the C4
counterexample copy. -/
def encRoundSet : Encoder := ⟨0, 0, 0, 0, true⟩

/-- C4 counterexample: copying the all-zero encoder, whose round flag is
false, into an encoder whose round flag is true leaves the destination
round flag true, so the copy is not a complete value copy of every
field. -/
theorem C4_copy_counterexample :
    (encRoundSet.copy Encoder.zero).round ≠ Encoder.zero.round := by
  decide

/-- C4 (amended): Encoder::copy assigns o, delta, nb_bit_precision and
nb_bit_padding from the source and leaves the round flag of the
destination unchanged; Plaintext::set_nth_encoder applies exactly this
copy to the selected slot when the index is in range. -/
theorem C4_copy_fields :
    (∀ dst src : Encoder,
      (dst.copy src).o = src.o ∧
      (dst.copy src).delta = src.delta ∧
      (dst.copy src).nb_bit_precision = src.nb_bit_precision ∧
      (dst.copy src).nb_bit_padding = src.nb_bit_padding ∧
      (dst.copy src).round = dst.round) ∧
    (∀ (p : Plaintext) (nth : ℕ) (enc : Encoder),
      nth < p.encoders.length →
      p.set_nth_encoder nth enc =
        .ok { p with
                encoders := p.encoders.set nth
                  ((p.encoders.getD nth Encoder.zero).copy enc) }) := by
  refine ⟨fun dst src => ⟨rfl, rfl, rfl, rfl, rfl⟩, ?_⟩
  intro p nth enc h
  simp [Plaintext.set_nth_encoder, h]

/-- C4 witness: the in-range branch of set_nth_encoder on a one-slot
zero plaintext. -/
theorem C4_copy_fields_witness :
    0 < (Plaintext.zero 1).encoders.length ∧
    (Plaintext.zero 1).set_nth_encoder 0 encEx =
      .ok { Plaintext.zero 1 with
              encoders := (Plaintext.zero 1).encoders.set 0
                (((Plaintext.zero 1).encoders.getD 0 Encoder.zero).copy encEx) } := by
  have h : 0 < (Plaintext.zero 1).encoders.length := by decide
  exact ⟨h, C4_copy_fields.2 (Plaintext.zero 1) 0 encEx h⟩

/-- C5: update_precision_from_variance returns the noise-bit count and
leaves every field of the encoder unchanged. -/
theorem C5_update_precision_frame (e : Encoder) (variance : ℚ)
    (h : e.is_valid = true) :
    (e.update_precision_from_variance variance).1 = e.nb_noise_bits variance ∧
    (e.update_precision_from_variance variance).2 = e :=
  ⟨rfl, rfl⟩

/-- C5 witness: the frame property instantiated on the spec scenario
encoder and a small variance. -/
theorem C5_update_precision_frame_witness :
    encEx.is_valid = true ∧
    ((encEx.update_precision_from_variance (1/1024)).1
        = encEx.nb_noise_bits (1/1024) ∧
      (encEx.update_precision_from_variance (1/1024)).2 = encEx) := by
  have h1 : encEx.is_valid = true :=
    (Encoder.valid_iff encEx).mpr ⟨by norm_num [encEx], by norm_num [encEx]⟩
  exact ⟨h1, C5_update_precision_frame encEx (1/1024) h1⟩

/-- C6: bootstrap is bootstrap_with_function specialized to the identity
function and the own encoder of the ciphertext, for every backend. -/
theorem C6_bootstrap_identity (backend : BootstrapBackend) (ct : LWE)
    (bsk : LWEBSK) :
    LWE.bootstrap backend ct bsk
      = LWE.bootstrap_with_function backend ct bsk (fun x => x) ct.encoder :=
  rfl

/-- C8: the derived interval getters of a valid encoder compute offset,
offset plus delta minus granularity, delta minus granularity, and delta
over two to the precision. -/
theorem C8_interval_bounds (e : Encoder) (h : e.is_valid = true) :
    e.get_min = e.o ∧
    e.get_max = e.o + e.delta - e.delta / 2 ^ e.nb_bit_precision ∧
    e.get_size = e.delta - e.delta / 2 ^ e.nb_bit_precision ∧
    e.get_granularity = e.delta / 2 ^ e.nb_bit_precision :=
  ⟨rfl, rfl, rfl, rfl⟩

/-- C8 witness: the interval getters on the spec scenario encoder. -/
theorem C8_interval_bounds_witness :
    encEx.is_valid = true ∧
    (encEx.get_min = encEx.o ∧
     encEx.get_max = encEx.o + encEx.delta - encEx.delta / 2 ^ encEx.nb_bit_precision ∧
     encEx.get_size = encEx.delta - encEx.delta / 2 ^ encEx.nb_bit_precision ∧
     encEx.get_granularity = encEx.delta / 2 ^ encEx.nb_bit_precision) := by
  have h1 : encEx.is_valid = true :=
    (Encoder.valid_iff encEx).mpr ⟨by norm_num [encEx], by norm_num [encEx]⟩
  exact ⟨h1, C8_interval_bounds encEx h1⟩

/-- Example packed ciphertext used to exercise the size getter. -/
def rlweEx : VectorRLWE := ⟨[0, 0, 0, 0], [0], 1, 2, 1, [encEx, encEx]⟩

/-- C10: the ciphertext size getters return dimension plus one for LWE
and polynomial size times dimension plus one for VectorRLWE, and both
leave the ciphertext state unchanged. -/
theorem C10_ciphertext_size (ct : LWE) (vr : VectorRLWE) :
    ct.get_ciphertext_size = (ct.dimension + 1, ct) ∧
    vr.get_ciphertext_size = (vr.polynomial_size * (vr.dimension + 1), vr) :=
  ⟨rfl, rfl⟩

/-- C7 counterexample: the raw plaintexts setter accepts a list of a
different length, so starting from a one-slot zero plaintext and setting
the list to empty breaks the length invariant. -/
theorem C7_invariant_counterexample :
    Plaintext.inv (Plaintext.zero 1) ∧
    ¬ Plaintext.inv ((Plaintext.zero 1).set_plaintexts []) := by
  constructor
  · decide
  · decide

/-- C7 (amended): the length invariant is established by zero and by
encode, and the raw setters preserve it exactly when the supplied list
length, respectively the supplied count, agrees with the current
nb_plaintexts; with a different length they break it, as the
counterexample shows. -/
theorem C7_invariant (n : ℕ) (msgs : List ℚ) (e : Encoder) (p q : Plaintext)
    (v : List ℕ) (k : ℕ) :
    Plaintext.inv (Plaintext.zero n) ∧
    (Plaintext.encode msgs e = .ok p → p.inv) ∧
    (q.inv → v.length = q.nb_plaintexts → (q.set_plaintexts v).inv) ∧
    (q.inv → k = q.nb_plaintexts → (q.set_nb_plaintexts k).inv) := by
  refine ⟨?_, ?_, ?_, ?_⟩
  · simp [Plaintext.inv, Plaintext.zero]
  · intro h
    unfold Plaintext.encode at h
    by_cases hc : msgs.all (fun m => e.in_interval m) = true
    · rw [if_pos hc] at h
      cases h
      simp [Plaintext.inv]
    · rw [if_neg hc] at h
      cases h
  · intro h1 h2
    obtain ⟨ha, hb⟩ := h1
    exact ⟨by simpa [Plaintext.set_plaintexts, h2] using ha.trans hb,
      by simp [Plaintext.set_plaintexts, h2]⟩
  · intro h1 h2
    obtain ⟨ha, hb⟩ := h1
    exact ⟨by simpa [Plaintext.set_nb_plaintexts] using ha,
      by simp [Plaintext.set_nb_plaintexts, h2, hb]⟩

/-- C7 witness: the guarded setter branch on a two-slot zero plaintext
and a two-element replacement list. -/
theorem C7_invariant_witness :
    Plaintext.inv (Plaintext.zero 2) ∧
    ([5, 6] : List ℕ).length = (Plaintext.zero 2).nb_plaintexts ∧
    ((Plaintext.zero 2).set_plaintexts [5, 6]).inv := by
  have h1 : Plaintext.inv (Plaintext.zero 2) := by decide
  have h2 : ([5, 6] : List ℕ).length = (Plaintext.zero 2).nb_plaintexts := by decide
  exact ⟨h1, h2,
    (C7_invariant 2 [] Encoder.zero (Plaintext.zero 2) (Plaintext.zero 2)
      [5, 6] 0).2.2.1 h1 h2⟩

/-- C9 counterexample: set_nth_encoder on an empty plaintext with index
zero aborts instead of returning an IndexError result, because the
source indexes the encoder list without a bound check. -/
theorem C9_index_counterexample :
    (Plaintext.zero 0).set_nth_encoder 0 Encoder.zero ≠
      POutcome.err CryptoAPIError.IndexError ∧
    (Plaintext.zero 0).set_nth_encoder 0 Encoder.zero = POutcome.abort := by
  constructor
  · decide
  · decide

/-- C9 (amended): extract_nth is total on out-of-range indices and
returns IndexError there, while set_nth_encoder performs an unchecked
index access and aborts on every out-of-range index. -/
theorem C9_index_totality (v : VectorLWE) (n : ℕ) (p : Plaintext) (k : ℕ)
    (enc : Encoder) :
    (v.nb_ciphertexts ≤ n →
      v.extract_nth n = POutcome.err CryptoAPIError.IndexError) ∧
    (p.encoders.length ≤ k →
      p.set_nth_encoder k enc = POutcome.abort) := by
  constructor
  · intro h
    simp [VectorLWE.extract_nth, Nat.not_lt.mpr h]
  · intro h
    simp [Plaintext.set_nth_encoder, Nat.not_lt.mpr h]

/-- Example vector ciphertext with two slots. -/
def vecEx : VectorLWE := ⟨[1, 2, 3, 4], [0, 0], 1, 2, [encEx, encEx]⟩

/-- C9 witness: both branches of the totality theorem instantiated on
concrete out-of-range indices. -/
theorem C9_index_totality_witness :
    (vecEx.nb_ciphertexts ≤ 5 ∧
      vecEx.extract_nth 5 = POutcome.err CryptoAPIError.IndexError) ∧
    ((Plaintext.zero 1).encoders.length ≤ 3 ∧
      (Plaintext.zero 1).set_nth_encoder 3 encEx = POutcome.abort) := by
  have h1 : vecEx.nb_ciphertexts ≤ 5 := by decide
  have h2 : (Plaintext.zero 1).encoders.length ≤ 3 := by decide
  exact ⟨⟨h1, (C9_index_totality vecEx 5 (Plaintext.zero 1) 3 encEx).1 h1⟩,
    ⟨h2, (C9_index_totality vecEx 5 (Plaintext.zero 1) 3 encEx).2 h2⟩⟩
